import Mathlib

/-!
# ledger-publisher: verification of the deterministic commitment pipeline

Shallow embedding of the builder core of the ledger-publisher repository:
the Merkle engine (`builder/merkle.py`), the normalizer registry
(`builder/normalizers.py`), the bundle builder's normalization, sorting and
chunking stages (`builder/build.py`), the manifest generator
(`builder/manifest.py`), the append-only guard
(`builder/append_only_guard.py`) and the proof materializer's leaf
recomputation (`builder/generate_proofs.py`).

Modelling conventions:

* The SHA-256 primitive `hashlib.sha256(s.encode('utf-8')).hexdigest()` is an
  external library call; every definition that hashes takes it as an explicit
  argument `hash : String → String` (abstract, as in pen-and-paper Merkle
  proofs), so theorems quantify over the hash function and witnesses
  instantiate it with concrete functions.
* Python code that raises returns `Option`/`Except` here; an out-of-range
  list subscript (Python `IndexError`) is an `Option.none` via `l[i]?`.
* Python lists that the source mutates in place are threaded explicitly:
  `build_merkle_tree` returns the root *and* the final state of its list
  argument, because the source appends to the caller's list.
* Python dicts of strings are association lists `List (String × String)`;
  `record.get(f, "")` is `(List.lookup f record).getD ""`.
* `datetime`/IDNA library calls that `iso8601_to_utc` and
  `idna_lower_strip_trailing_dot` delegate to are abstract functions in an
  `Ext` record, with `Option.none` for their exception paths.
-/

namespace Ledger

/-! ## Merkle engine (`builder/merkle.py`) -/

/-- `merkle.compute_leaf` (lines 12-22): the SHA-256 hex digest of the UTF-8
encoding of the canonical string, with the hash primitive abstract. -/
def compute_leaf (hash : String → String) (canonical_bytes : String) : String :=
  hash canonical_bytes

/-- The pairing loop of `build_merkle_tree` (lines 49-56) and
`_build_tree_layers` (lines 100-107): `for i in range(0, len(leaves), 2)`,
`parent = sha256((left + right).encode('utf-8')).hexdigest()`. The source
only runs it on even-length lists (it pads first); on an odd tail this
embedding drops the unpaired element, a case the source never reaches. -/
def hashPairs (hash : String → String) : List String → List String
  | a :: b :: rest => hash (a ++ b) :: hashPairs hash rest
  | _ => []

/-- Each pairing pass halves the list length (used for termination below). -/
theorem hashPairs_length (hash : String → String) :
    ∀ l : List String, (hashPairs hash l).length = l.length / 2
  | [] => by simp [hashPairs]
  | [_] => by simp [hashPairs]
  | _ :: _ :: rest => by
    simp [hashPairs, hashPairs_length hash rest]
    omega

/-- The odd-level padding `if len(current) % 2 == 1: current.append(current[-1])`
(merkle.py lines 45-46 and 96-97). -/
def padDup (l : List String) : List String :=
  if l.length % 2 = 1 then l ++ [l.getLast!] else l

/-- Length of a padded level (used for termination below). -/
theorem padDup_length (l : List String) :
    (padDup l).length = l.length + l.length % 2 := by
  unfold padDup
  split <;> simp <;> omega

/-- `merkle.build_merkle_tree` (lines 25-59), in state-passing form. The
source mutates its `leaves` argument: when the length is odd (and ≥ 2) it
appends a duplicate of the last element to the *caller's* list before
building the next level. The result is `(root, final state of the argument
list)`; the recursive call receives the freshly built `next_level` list, so
its own state component is discarded, exactly as the mutation of a fresh
Python list is invisible to the outer caller. `none` models the
`ValueError` raised on empty input (line 38-39). -/
def build_merkle_tree (hash : String → String) (leaves : List String) :
    Option (String × List String) :=
  if leaves.length = 0 then none
  else if leaves.length = 1 then some (leaves.head!, leaves)
  else
    let padded := padDup leaves
    match build_merkle_tree hash (hashPairs hash padded) with
    | none => none
    | some (r, _) => some (r, padded)
termination_by leaves.length
decreasing_by
  simp [hashPairs_length, padDup_length]
  omega

/-- Spec-side pairing, written from the spec's words (§4.4): "pair adjacent
elements `(a, b)` and compute the parent as `hash(a ++ b)` (hex
concatenation)". Kept separate from `hashPairs` so that the code-side and
spec-side constructions can be compared. -/
def specLevelParents (hash : String → String) : List String → List String
  | a :: b :: rest => hash (a ++ b) :: specLevelParents hash rest
  | _ => []

/-- The two pairing definitions agree pointwise. -/
theorem specLevelParents_eq (hash : String → String) :
    ∀ l : List String, specLevelParents hash l = hashPairs hash l
  | [] => rfl
  | [_] => rfl
  | _ :: _ :: rest => by
    simp only [specLevelParents, hashPairs, specLevelParents_eq hash rest]

/-- Spec-side Merkle root, written from the spec's words (§4.4
Construction): "Require `|L₀| ≥ 1` else fail `EmptyLeafSet`. At each level
`k`: if `|Lₖ|` is odd, duplicate the last element so it becomes even; pair
adjacent elements and compute the parent as `hash(a ++ b)`; stop when the
layer has one element." -/
def specMerkleRoot (hash : String → String) (L : List String) : Option String :=
  if L.length = 0 then none
  else if L.length = 1 then some L.head!
  else
    specMerkleRoot hash
      (specLevelParents hash (if L.length % 2 = 1 then L ++ [L.getLast!] else L))
termination_by L.length
decreasing_by
  rw [specLevelParents_eq, hashPairs_length]
  split
  · simp
    omega
  · omega

/-- The stored form of a non-base layer of `MerkleTree._build_tree_layers`:
`layers.append(next_level)` (line 109) stores the very list object that the
*next* loop iteration pads in place (line 96-97), so a stored non-base layer
of odd length greater than one carries the duplicated last element. The
base layer is exempt: `layers = [leaves.copy()]` (line 91) is a copy taken
before any padding. -/
def storedLayer (l : List String) : List String :=
  if 1 < l.length then padDup l else l

/-- The layers strictly above `current` as `_build_tree_layers` stores them
(the `while len(current) > 1` loop, lines 94-110). -/
def layersAbove (hash : String → String) (current : List String) : List (List String) :=
  if 1 < current.length then
    let next := hashPairs hash (padDup current)
    storedLayer next :: layersAbove hash next
  else []
termination_by current.length
decreasing_by
  simp [hashPairs_length, padDup_length]
  omega

/-- `MerkleTree._build_tree_layers` (lines 81-112): the base layer is an
unpadded copy of the leaves, the layers above are as the loop stores them. -/
def build_tree_layers (hash : String → String) (leaves : List String) : List (List String) :=
  leaves :: layersAbove hash leaves

/-- `MerkleTree.root` (line 79): `self.layers[-1][0]` (the layers list is
never empty). -/
def merkle_tree_root (hash : String → String) (leaves : List String) : String :=
  ((build_tree_layers hash leaves).getLast!).head!

/-- One step of a Merkle proof: `{"direction": "left"|"right", "sibling_hash": …}`
(merkle.py lines 157-160). -/
structure ProofStep where
  direction : String
  sibling_hash : String
deriving DecidableEq

/-- The dictionary returned by `MerkleTree.generate_proof` (lines 165-170). -/
structure ProofData where
  leaf_index : Nat
  leaf_hash : String
  proof : List ProofStep
  expected_root : String
deriving DecidableEq

/-- The proof-collection loop of `generate_proof` (lines 140-163): walk the
non-root layers from the bottom; at each layer the sibling index is
`index+1` for a left child (even index) and `index-1` for a right child;
`current_layer[sibling_index]` is a plain subscript, so an out-of-range
sibling index is an `IndexError`, modelled as `none`. -/
def proofSteps : List (List String) → Nat → Option (List ProofStep)
  | [], _ => some []
  | layer :: rest, idx =>
    let sibling_index := if idx % 2 = 0 then idx + 1 else idx - 1
    match layer[sibling_index]?, proofSteps rest (idx / 2) with
    | some sib, some steps =>
        some (⟨if idx % 2 = 0 then "left" else "right", sib⟩ :: steps)
    | _, _ => none

/-- `MerkleTree.generate_proof` (lines 114-170): the explicit range check on
`leaf_index` raises `IndexError` (`none`), the loop runs over
`range(len(self.layers) - 1)` (every layer but the top, hence `dropLast`),
and `leaf_hash` is `self.leaves[leaf_index]` (in range here, hence `getD`). -/
def generate_proof (hash : String → String) (leaves : List String) (leaf_index : Nat) :
    Option ProofData :=
  if leaf_index < leaves.length then
    match proofSteps (build_tree_layers hash leaves).dropLast leaf_index with
    | some steps =>
        some ⟨leaf_index, leaves.getD leaf_index "", steps, merkle_tree_root hash leaves⟩
    | none => none
  else none

/-- `merkle.verify_proof` (lines 173-204): fold the proof steps over the
leaf hash (`left` ⇒ `hash(current ++ sibling)`, otherwise
`hash(sibling ++ current)`) and compare with the expected root. -/
def verify_proof (hash : String → String) (leaf_hash : String)
    (proof : List ProofStep) (expected_root : String) : Bool :=
  (proof.foldl (fun current step =>
    if step.direction = "left" then hash (current ++ step.sibling_hash)
    else hash (step.sibling_hash ++ current)) leaf_hash) == expected_root

end Ledger

namespace Ledger

/-! ## Normalizer registry (`builder/normalizers.py`) -/

/-- External library calls the normalizers delegate to, abstract here:
`value.encode('idna')` (with `none` for its exception path, normalizers.py
lines 34-38) and the whole `datetime` parse/convert/format body of
`iso8601_to_utc` (lines 84-95, `none` for a parse `ValueError`). -/
structure Ext where
  idnaEncode : String → Option String
  isoToUtc : String → Option String

/-- Python `s.endswith(suffix)`, on the character lists (extensionally
`String.endsWith`, written so that concrete instances evaluate). -/
def strEndsWith (s suffix : String) : Bool :=
  suffix.data.isSuffixOf s.data

/-- Python `s.startswith(pre)`, on the character lists. -/
def strStartsWith (s pre : String) : Bool :=
  pre.data.isPrefixOf s.data

/-- Strict lexicographic order on character lists: Python's `<` on strings
(code-point lexicographic, extensionally Lean's `String.lt`). -/
def strLtChars : List Char → List Char → Bool
  | [], [] => false
  | [], _ :: _ => true
  | _ :: _, [] => false
  | a :: ta, b :: tb => if a < b then true else if b < a then false else strLtChars ta tb

/-- Python's `<` on strings. -/
def strLt (a b : String) : Bool :=
  strLtChars a.data b.data

/-- Python's `<=` on strings. -/
def strLe (a b : String) : Bool :=
  !strLt b a

/-- The characters `str.strip()` removes, restricted to ASCII (the
docstring's contract: "Remove leading/trailing ASCII whitespace"). -/
def isAsciiSpace (c : Char) : Bool :=
  c = ' ' || c = '\t' || c = '\n' || c = '\r' || c = '\x0B' || c = '\x0C'

/-- `normalizers.trim_ascii` (lines 12-14): `value.strip()`. -/
def trim_ascii (value : String) : String :=
  ⟨((value.data.dropWhile isAsciiSpace).reverse.dropWhile isAsciiSpace).reverse⟩

/-- `normalizers.lower` (lines 17-19): `value.lower()` (per-character case
fold; the inputs of interest are ASCII). -/
def lower (value : String) : String :=
  ⟨value.data.map Char.toLower⟩

/-- `normalizers.upper` (lines 22-24): `value.upper()`. -/
def upper (value : String) : String :=
  ⟨value.data.map Char.toUpper⟩

/-- `normalizers.idna_lower_strip_trailing_dot` (lines 27-47): IDNA-encode
with fallback to the raw value on any exception, lowercase, drop one
trailing dot. -/
def idna_lower_strip_trailing_dot (ext : Ext) (value : String) : String :=
  let encoded := (ext.idnaEncode value).getD value
  let lowered := lower encoded
  if strEndsWith lowered "." then lowered.dropRight 1 else lowered

/-- The error values of normalizers.py: `ValueError("Invalid …")` from a
validating normalizer and `ValueError("Unknown normalizer: …")` from the
registry lookup. -/
inductive NormError where
  | invalidFormat (value : String)
  | unknownNormalizer (name : String)
deriving DecidableEq

/-- The subject of `re.match(r'^…$', s)`: Python's `$` also matches just
before a single trailing newline, so an anchored exact match sees `s` with
at most one final `'\n'` removed. -/
def reMatchTarget (s : String) : String :=
  if strEndsWith s "\n" then s.dropRight 1 else s

/-- The character class `[0-9a-f]`. -/
def isLowerHexDigit (c : Char) : Bool :=
  ('0' ≤ c && c ≤ '9') || ('a' ≤ c && c ≤ 'f')

/-- `re.match(r'^0x[0-9a-f]{n}$', s)` as a boolean. -/
def matches_0x_hex (n : Nat) (s0 : String) : Bool :=
  let cs := (reMatchTarget s0).data
  strStartsWith (reMatchTarget s0) "0x" && (cs.drop 2).length == n
    && (cs.drop 2).all isLowerHexDigit

/-- `normalizers.lower_hex` (lines 50-59): lowercase, then the value must
match `^0x[0-9a-f]{64}$` or the normalizer raises. -/
def lower_hex (value : String) : Except NormError String :=
  let v := lower value
  if matches_0x_hex 64 v then .ok v else .error (.invalidFormat v)

/-- `normalizers.lower_address_optional` (lines 62-73). -/
def lower_address_optional (value : String) : Except NormError String :=
  if value = "" then .ok ""
  else
    let v := lower value
    if matches_0x_hex 40 v then .ok v else .error (.invalidFormat v)

/-- `normalizers.iso8601_to_utc` (lines 76-95): the `datetime` round trip is
the abstract `ext.isoToUtc`; a parse failure raises. -/
def iso8601_to_utc (ext : Ext) (value : String) : Except NormError String :=
  match ext.isoToUtc value with
  | some s => .ok s
  | none => .error (.invalidFormat value)

/-- `re.match(r'^[0-9]+(\.[0-9]+)?$', s)` as a boolean. -/
def matches_decimal (s0 : String) : Bool :=
  let l := (reMatchTarget s0).data
  let intPart := l.takeWhile Char.isDigit
  match l.dropWhile Char.isDigit with
  | [] => !intPart.isEmpty
  | '.' :: fracPart => !intPart.isEmpty && !fracPart.isEmpty && fracPart.all Char.isDigit
  | _ => false

/-- `normalizers.decimal_string` (lines 98-106). -/
def decimal_string (value : String) : Except NormError String :=
  if matches_decimal value then .ok value else .error (.invalidFormat value)

/-- `normalizers.decimal_string_optional` (lines 109-113). -/
def decimal_string_optional (value : String) : Except NormError String :=
  if value = "" then .ok "" else decimal_string value

/-- `normalizers.lower_enum` (lines 116-122). -/
def lower_enum (value : String) : String :=
  lower value

/-- `normalizers.lower_enum_optional` (lines 132-136). -/
def lower_enum_optional (value : String) : String :=
  if value = "" then "" else lower_enum value

/-- `normalizers.trim_ascii_optional` (lines 125-129). -/
def trim_ascii_optional (value : String) : String :=
  if value = "" then "" else trim_ascii value

/-- Stable insertion into a list: the element settles in front of the first
element `b` with `le a b`, i.e. after every earlier element it ties with. -/
def insertSorted {α : Type} (le : α → α → Bool) (a : α) : List α → List α
  | [] => [a]
  | b :: t => if le a b then a :: b :: t else b :: insertSorted le a t

/-- Insertion sort. This models Python's `sorted` and the reference
canonical-JSON key sort extensionally: CPython's sort is documented stable,
and any two stable sorts by the same total preorder produce the same list,
so an insertion sort is a faithful model of the sorted output. -/
def stableSort {α : Type} (le : α → α → Bool) : List α → List α
  | [] => []
  | a :: t => insertSorted le a (stableSort le t)

/-- JSON string escaping for the canonical encoder: escape only required
characters (quote, backslash, the common control characters). -/
def jsonEscapeChar (c : Char) : String :=
  if c = '"' then "\\\""
  else if c = '\\' then "\\\\"
  else if c = '\n' then "\\n"
  else if c = '\r' then "\\r"
  else if c = '\t' then "\\t"
  else ⟨[c]⟩

/-- A JSON string literal. -/
def jsonQuote (s : String) : String :=
  "\"" ++ String.join (s.data.map jsonEscapeChar) ++ "\""

/-- Modelled from the spec: `deterministic_json` of
`ledger-spec/reference_impl`, imported by `builder/generate_proofs.py` and
`builder/normalizers.py` but not under src/. Spec §4.2 and §9: canonical
JSON — object keys sorted by code point, no insignificant whitespace, UTF-8,
escape only required characters. On a record (a string-to-string mapping) it
emits `\x7b"k":"v",…\x7d` with the keys sorted. -/
def deterministic_json (record : List (String × String)) : String :=
  "\x7b" ++
    String.intercalate ","
      ((stableSort (fun a b => strLe a.1 b.1) record).map
        (fun kv => jsonQuote kv.1 ++ ":" ++ jsonQuote kv.2)) ++
  "\x7d"

/-- `normalizers.deterministic_json_optional` (lines 139-155): empty input
gives the empty string, otherwise the canonical JSON of the value (a plain
string value encodes as a JSON string literal). -/
def deterministic_json_optional (value : String) : String :=
  if value = "" then "" else jsonQuote value

/-- The keys of `normalizers_map` (normalizers.py lines 169-183). -/
def normalizer_names : List String :=
  ["trim_ascii", "lower", "upper", "idna_lower_strip_trailing_dot", "lower_hex",
   "lower_address_optional", "iso8601_to_utc", "decimal_string",
   "decimal_string_optional", "lower_enum", "lower_enum_optional",
   "trim_ascii_optional", "deterministic_json_optional"]

/-- The dispatch `normalizer = normalizers_map[normalizer_name];
normalizer(value)` (the final-branch `unknownNormalizer` is unreachable when
the membership test of `apply` has passed). -/
def applyNamed (ext : Ext) (name value : String) : Except NormError String :=
  if name = "trim_ascii" then .ok (trim_ascii value)
  else if name = "lower" then .ok (lower value)
  else if name = "upper" then .ok (upper value)
  else if name = "idna_lower_strip_trailing_dot" then
    .ok (idna_lower_strip_trailing_dot ext value)
  else if name = "lower_hex" then lower_hex value
  else if name = "lower_address_optional" then lower_address_optional value
  else if name = "iso8601_to_utc" then iso8601_to_utc ext value
  else if name = "decimal_string" then decimal_string value
  else if name = "decimal_string_optional" then decimal_string_optional value
  else if name = "lower_enum" then .ok (lower_enum value)
  else if name = "lower_enum_optional" then .ok (lower_enum_optional value)
  else if name = "trim_ascii_optional" then .ok (trim_ascii_optional value)
  else if name = "deterministic_json_optional" then
    .ok (deterministic_json_optional value)
  else .error (.unknownNormalizer name)

/-- `normalizers.apply` (lines 158-195): unknown names raise; a name ending
`_optional` applied to an empty (falsy) value returns `""` before the
normalizer function is consulted; otherwise dispatch. -/
def apply (ext : Ext) (normalizer_name value : String) : Except NormError String :=
  if normalizer_names.contains normalizer_name then
    if strEndsWith normalizer_name "_optional" && value == "" then .ok ""
    else applyNamed ext normalizer_name value
  else .error (.unknownNormalizer normalizer_name)

end Ledger

namespace Ledger

/-! ## Bundle builder (`builder/build.py`) -/

/-- An input record: a JSON object of string fields, as an association list
(dict keys are unique; input ordering is irrelevant to the pipeline). -/
abbrev Record := List (String × String)

/-- A loaded profile (profile.json, spec §3): the fields `build.py` reads.
The separator and line ending carry the source defaults
(`profile.get("canonical_record_separator", "|")`,
`profile.get("canonical_line_ending", "\n")`, build.py lines 59-60). -/
structure Profile where
  required_fields : List String
  canonical_fields : List String
  normalizers : List (String × String)
  sort_keys : List String
  canonical_record_separator : String := "|"
  canonical_line_ending : String := "\n"
deriving DecidableEq

/-- The normalizer loop of `normalize_record` (build.py lines 39-42):
`for field, normalizer_name in profile["normalizers"].items(): if field in
record or normalizer_name.endswith("_optional"): value = record.get(field,
""); normalized[field] = normalizers.apply(normalizer_name, value)`. A
raising `apply` aborts the whole record at the first failing entry. -/
def normalizeLoop (ext : Ext) (record : Record) :
    List (String × String) → Except NormError (List (String × String))
  | [] => .ok []
  | (field, name) :: rest =>
    if (List.lookup field record).isSome || strEndsWith name "_optional" then
      match apply ext name ((List.lookup field record).getD "") with
      | .error e => .error e
      | .ok v =>
        match normalizeLoop ext record rest with
        | .error e => .error e
        | .ok tail => .ok ((field, v) :: tail)
    else normalizeLoop ext record rest

/-- The missing-field fill of `normalize_record` (build.py lines 45-47):
`for field in profile["canonical_fields"]: if field not in normalized:
normalized[field] = ""`. -/
def fillCanonical (normalized : List (String × String)) :
    List String → List (String × String)
  | [] => normalized
  | f :: rest =>
    fillCanonical
      (if (List.lookup f normalized).isSome then normalized else normalized ++ [(f, "")])
      rest

/-- `build.normalize_record` (lines 36-49). -/
def normalize_record (ext : Ext) (record : Record) (profile : Profile) :
    Except NormError (List (String × String)) :=
  match normalizeLoop ext record profile.normalizers with
  | .error e => .error e
  | .ok normalized => .ok (fillCanonical normalized profile.canonical_fields)

/-- `build.canonicalize_record` (lines 52-63): join the normalized values of
the canonical fields (`normalized.get(f, "")`) with the separator, then the
line ending. -/
def canonicalize_record (ext : Ext) (record : Record) (profile : Profile) :
    Except NormError String :=
  match normalize_record ext record profile with
  | .error e => .error e
  | .ok normalized =>
      .ok (String.intercalate profile.canonical_record_separator
            (profile.canonical_fields.map (fun f => (List.lookup f normalized).getD ""))
          ++ profile.canonical_line_ending)

/-- `build.sort_key` (lines 66-81): the tuple drawn from `sort_keys`, where
the literal token `canonical_bytes` resolves to the canonical byte string
and any other token to `normalized.get(key, "")`. -/
def sort_key (ext : Ext) (record : Record) (profile : Profile) :
    Except NormError (List String) :=
  match normalize_record ext record profile with
  | .error e => .error e
  | .ok normalized =>
    match canonicalize_record ext record profile with
    | .error e => .error e
    | .ok canonical_bytes =>
        .ok (profile.sort_keys.map (fun key =>
          if key = "canonical_bytes" then canonical_bytes
          else (List.lookup key normalized).getD ""))

/-- Python tuple comparison on equal-length tuples of strings:
lexicographic, element by element. -/
def tupleLe : List String → List String → Bool
  | [], _ => true
  | _ :: _, [] => false
  | a :: ta, b :: tb => if strLt a b then true else if strLt b a then false else tupleLe ta tb

/-- The sorting stage of `build_bundle` (line 117):
`sorted(records, key=lambda r: sort_key(r, profile))`. CPython computes the
key of each record once, sorts the decorated list stably by key order, and
strips the keys; an exception from the key function aborts the sort. -/
def sortRecords (ext : Ext) (profile : Profile) (records : List Record) :
    Except NormError (List Record) :=
  match records.mapM (fun r => (sort_key ext r profile).map (fun k => (k, r))) with
  | .error e => .error e
  | .ok keyed => .ok ((stableSort (fun a b => tupleLe a.1 b.1) keyed).map Prod.snd)

/-- The leaf stage of `build_bundle` (lines 119-127): the leaf of each
sorted record is the hash of its canonical bytes. -/
def builder_leaves (ext : Ext) (hash : String → String) (profile : Profile)
    (sorted_records : List Record) : Except NormError (List String) :=
  sorted_records.mapM (fun r => (canonicalize_record ext r profile).map (compute_leaf hash))

/-- The commitment stage of `build_bundle` (lines 117-130): sort, derive the
leaves, build the tree; the inner `Option` is the root (`none` only for an
empty record set, the `ValueError` of `build_merkle_tree`). -/
def bundle_root (ext : Ext) (hash : String → String) (profile : Profile)
    (records : List Record) : Except NormError (Option String) :=
  match sortRecords ext profile records with
  | .error e => .error e
  | .ok sorted =>
    match builder_leaves ext hash profile sorted with
    | .error e => .error e
    | .ok leaves => .ok ((build_merkle_tree hash leaves).map Prod.fst)

/-- Python `f"{n:03d}"`: decimal digits, zero-padded on the left to at least
three characters (wider numbers keep all their digits). -/
def pad3 (n : Nat) : String :=
  let s := toString n
  if s.length < 3 then ⟨List.replicate (3 - s.length) '0'⟩ ++ s else s

/-- The records file name `f"records-{file_num:03d}.jsonl"` (build.py line
141). -/
def records_file_name (file_num : Nat) : String :=
  "records-" ++ pad3 file_num ++ ".jsonl"

/-- The chunking loop of `build_bundle` (lines 137-139):
`for i in range(0, len(sorted_records), 10000): chunk =
sorted_records[i:i+10000]` — successive slices of at most 10 000 records. -/
def chunkRecords {α : Type} (records : List α) : List (List α) :=
  if records.isEmpty then []
  else records.take 10000 :: chunkRecords (records.drop 10000)
termination_by records.length
decreasing_by
  have hpos : 0 < records.length := by
    cases records with
    | nil => simp_all
    | cons a t => simp
  simp only [List.length_drop]
  omega

/-- The emitted records files of `build_bundle` (lines 137-145): chunk `k`
(starting at `i = 10000·k`, so `file_num = i // 10000 = k`) is written to
`records-{k:03d}.jsonl`. -/
def records_files {α : Type} (records : List α) : List (String × List α) :=
  (chunkRecords records).enum.map (fun p => (records_file_name p.1, p.2))

/-! ## Manifest generator (`builder/manifest.py`) -/

/-- A file as `generate_manifest` observes it: `file_path.name` (every
bundle file it lists sits in the one bundle directory) and the bytes
written. -/
structure EmittedFile where
  name : String
  content : String
deriving DecidableEq

/-- `manifest.compute_file_hash` (lines 13-15). -/
def compute_file_hash (hash : String → String) (f : EmittedFile) : String :=
  hash f.content

/-- `manifest.compute_file_size` (lines 18-20): the size in bytes. -/
def compute_file_size (f : EmittedFile) : Nat :=
  f.content.utf8ByteSize

/-- An entry of the manifest's `files` array (manifest.py lines 48-52). -/
structure FileEntry where
  path : String
  sha256 : String
  size : Nat
deriving DecidableEq

/-- The manifest dictionary (manifest.py lines 58-65). -/
structure Manifest where
  version : String
  date : String
  files : List FileEntry
  core_spec_sha256 : String
  profile_sha256 : String
  daily_root_sha256 : String
deriving DecidableEq

/-- `manifest.generate_manifest` (lines 23-67): the `files` array lists the
given files sorted by path with per-file hash and size;
`daily_root_sha256` is the passed Merkle root; `core_spec_sha256` and
`profile_sha256` are emitted as the literal placeholder `"..."` (source
lines 62-63, each carrying a `TODO: compute from …` comment). -/
def generate_manifest (hash : String → String) (date : String)
    (files : List EmittedFile) (daily_root : String) : Manifest :=
  { version := "1"
    date := date
    files := (stableSort (fun a b => strLe a.name b.name) files).map
      (fun f => ⟨f.name, compute_file_hash hash f, compute_file_size f⟩)
    core_spec_sha256 := "..."
    profile_sha256 := "..."
    daily_root_sha256 := daily_root }

/-! ## Append-only guard (`builder/append_only_guard.py`) -/

/-- The remote manifest as the guard reads it:
`remote_manifest.get("daily_root_sha256", "")`, so the field may be absent.
(The guard also skips an empty — falsy — remote dict; a parsed manifest
object here is non-empty.) -/
structure RemoteManifest where
  daily_root_sha256 : Option String
deriving DecidableEq

/-- The outcome of the HTTP GET
`<remote_url>/proofs/<date>/manifest.json`: a parsed 2xx body, a 404, or
any other failure (non-2xx/404 status `HTTPError`, `URLError`, DNS or
connection errors, malformed JSON). -/
inductive FetchResult where
  | success (manifest : RemoteManifest)
  | notFound
  | transportError
deriving DecidableEq

/-- `append_only_guard.get_existing_manifest` (lines 13-30): the whole body
is one `try` whose handler is `except Exception: return None`, so the 404
`HTTPError` and every transport failure take the same `None` path. -/
def get_existing_manifest : FetchResult → Option RemoteManifest
  | .success m => some m
  | .notFound => none
  | .transportError => none

/-- The observable outcome of `check_append_only`: the returned boolean, or
the `RuntimeError("Append-only violation: …")` raise. -/
inductive GuardOutcome where
  | ok (result : Bool)
  | appendOnlyViolation
deriving DecidableEq

/-- `append_only_guard.check_append_only` (lines 33-71): `local_manifest_sha256`
is the SHA-256 of the local `manifest.json` when that file exists (`none`
when it does not, the early `return True`); with a remote URL configured the
guard fetches the remote manifest and raises only when one was returned and
its `daily_root_sha256` differs from the local manifest file's hash. -/
def check_append_only (local_manifest_sha256 : Option String)
    (remote_url : Option String) (fetch : FetchResult) : GuardOutcome :=
  match local_manifest_sha256 with
  | none => .ok true
  | some local_sha =>
    match remote_url with
    | none => .ok true
    | some _ =>
      match get_existing_manifest fetch with
      | none => .ok true
      | some remote_manifest =>
        if local_sha ≠ remote_manifest.daily_root_sha256.getD "" then .appendOnlyViolation
        else .ok true

/-! ## Proof materializer (`builder/generate_proofs.py`) -/

/-- The leaf recomputation of `generate_proofs_for_bundle` (lines 42-55):
for every record read back from the emitted `records-*.jsonl` files the
leaf is `compute_leaf(deterministic_json(record))` — the canonical JSON
encoding of the record object, not its canonical bytes under the profile. -/
def recomputed_leaves (hash : String → String) (records : List Record) : List String :=
  records.map (fun r => compute_leaf hash (deterministic_json r))

/-- The root self-check of `generate_proofs_for_bundle` (lines 59-69): build
`MerkleTree(leaves)` over the recomputed leaves and raise
`ValueError("Merkle root mismatch: …")` iff its root differs from the
written `daily_root.txt`. `true` means the error is raised. -/
def root_mismatch (hash : String → String) (records : List Record)
    (written_root : String) : Bool :=
  merkle_tree_root hash (recomputed_leaves hash records) != written_root

end Ledger

namespace Ledger

/-! ## Theorems: Merkle construction (C1, C2, C9, C10) -/

/-- Building the next level strictly shrinks a level of length ≥ 2. -/
theorem next_level_length_lt (hash : String → String) (leaves : List String)
    (h2 : 2 ≤ leaves.length) :
    (hashPairs hash (padDup leaves)).length < leaves.length := by
  simp [hashPairs_length, padDup_length]
  omega

/-- The root computed by `build_merkle_tree` coincides with the spec-side
level-by-level construction, on every input (including the empty failure). -/
theorem bmt_fst_eq_spec (hash : String → String) (leaves : List String) :
    (build_merkle_tree hash leaves).map Prod.fst = specMerkleRoot hash leaves := by
  suffices h : ∀ (n : Nat) (l : List String), l.length ≤ n →
      (build_merkle_tree hash l).map Prod.fst = specMerkleRoot hash l from
    h leaves.length leaves le_rfl
  intro n
  induction n with
  | zero =>
    intro l hle
    have hnil : l = [] := List.eq_nil_of_length_eq_zero (Nat.le_zero.mp hle)
    subst hnil
    rw [build_merkle_tree, specMerkleRoot]
    simp
  | succ n ih =>
    intro l hle
    rw [build_merkle_tree, specMerkleRoot]
    by_cases h0 : l.length = 0
    · simp [h0]
    · by_cases h1 : l.length = 1
      · simp [h0, h1]
      · simp only [h0, h1, if_false]
        have hpd : (if l.length % 2 = 1 then l ++ [l.getLast!] else l) = padDup l := rfl
        rw [specLevelParents_eq, hpd]
        have hlt : (hashPairs hash (padDup l)).length < l.length :=
          next_level_length_lt hash l (by omega)
        have ih' := ih (hashPairs hash (padDup l)) (by omega)
        cases hb : build_merkle_tree hash (hashPairs hash (padDup l)) with
        | none =>
          rw [hb] at ih'
          simpa using ih'
        | some p =>
          obtain ⟨r, s⟩ := p
          rw [hb] at ih'
          simpa using ih'

/-- `build_merkle_tree` succeeds on every non-empty leaf list. -/
theorem bmt_isSome (hash : String → String) (leaves : List String) (hne : leaves ≠ []) :
    (build_merkle_tree hash leaves).isSome := by
  suffices h : ∀ (n : Nat) (l : List String), l.length ≤ n → l ≠ [] →
      (build_merkle_tree hash l).isSome from h leaves.length leaves le_rfl hne
  intro n
  induction n with
  | zero =>
    intro l hle hne'
    exact absurd (List.eq_nil_of_length_eq_zero (Nat.le_zero.mp hle)) hne'
  | succ n ih =>
    intro l hle hne'
    rw [build_merkle_tree]
    have h0 : ¬ l.length = 0 := fun hc => hne' (List.eq_nil_of_length_eq_zero hc)
    by_cases h1 : l.length = 1
    · simp [h0, h1]
    · simp only [h0, h1, if_false]
      have hlt : (hashPairs hash (padDup l)).length < l.length :=
        next_level_length_lt hash l (by omega)
      have hlen : (hashPairs hash (padDup l)).length ≠ 0 := by
        simp [hashPairs_length, padDup_length]
        omega
      have ih' := ih (hashPairs hash (padDup l)) (by omega)
        (fun hc => hlen (by simp [hc]))
      cases hb : build_merkle_tree hash (hashPairs hash (padDup l)) with
      | none => rw [hb] at ih'; simp at ih'
      | some p => simp [hb]

/-- On a list of length ≥ 2, the final state of the argument is the padded
list. -/
theorem bmt_snd_padDup (hash : String → String) (leaves : List String)
    (h2 : 2 ≤ leaves.length) :
    (build_merkle_tree hash leaves).map Prod.snd = some (padDup leaves) := by
  have hlen : (hashPairs hash (padDup leaves)).length ≠ 0 := by
    simp [hashPairs_length, padDup_length]
    omega
  have hs := bmt_isSome hash (hashPairs hash (padDup leaves))
    (fun hc => hlen (by simp [hc]))
  rw [build_merkle_tree]
  have h0 : ¬ leaves.length = 0 := by omega
  have h1 : ¬ leaves.length = 1 := by omega
  simp only [h0, h1, if_false]
  cases hb : build_merkle_tree hash (hashPairs hash (padDup leaves)) with
  | none => rw [hb] at hs; simp at hs
  | some p => simp [hb]

/-- A single leaf is returned unhashed, with the argument list untouched. -/
theorem bmt_singleton (hash : String → String) (x : String) :
    build_merkle_tree hash [x] = some (x, [x]) := by
  simp [build_merkle_tree]

/-- C1. For every non-empty list of leaf hex strings, `build_merkle_tree`
computes the root by the spec's level-by-level rule — duplicate the last
element of an odd level, hash each adjacent pair as the hash of the
concatenation `left ++ right`, stop at one element — and a single-element
input returns that element with no hashing (the result does not depend on
the hash function at all). The equality also covers the empty-input failure
on both sides. -/
theorem c1_build_merkle_tree_matches_level_spec :
    ∀ (hash : String → String) (leaves : List String),
      ((build_merkle_tree hash leaves).map Prod.fst = specMerkleRoot hash leaves)
      ∧ (∀ x : String, build_merkle_tree hash [x] = some (x, [x])) :=
  fun hash leaves => ⟨bmt_fst_eq_spec hash leaves, fun x => bmt_singleton hash x⟩

/-- C2. `MerkleTree.generate_proof` does *not* succeed for every in-range
index: with three leaves (an odd base layer) the proof for the last leaf
(index 2) computes sibling index 3 in the stored base layer — which was
copied *before* the duplicate-last padding and has only three elements — 
so the subscript `current_layer[sibling_index]` raises `IndexError`
(`none` here), for every hash function. -/
theorem c2_generate_proof_fails_on_last_leaf_of_odd_layer :
    ∀ hash : String → String, generate_proof hash ["aa", "bb", "cc"] 2 = none := by
  intro hash
  simp [generate_proof, build_tree_layers, layersAbove, hashPairs, padDup,
    storedLayer, proofSteps]

/-- C9. `build_merkle_tree` mutates its list argument exactly on odd lengths
≥ 3: there it returns having appended a duplicate of the last element to the
caller's list, while for a single-element or even-length (≥ 2) list the
argument is returned unchanged. -/
theorem c9_build_merkle_tree_mutates_odd_argument (hash : String → String)
    (leaves : List String) :
    (leaves.length = 1 → build_merkle_tree hash leaves = some (leaves.head!, leaves))
    ∧ (3 ≤ leaves.length → leaves.length % 2 = 1 →
        (build_merkle_tree hash leaves).map Prod.snd = some (leaves ++ [leaves.getLast!]))
    ∧ (2 ≤ leaves.length → leaves.length % 2 = 0 →
        (build_merkle_tree hash leaves).map Prod.snd = some leaves) := by
  refine ⟨?_, ?_, ?_⟩
  · intro h1
    obtain ⟨x, hx⟩ := List.length_eq_one.mp h1
    subst hx
    simpa using bmt_singleton hash x
  · intro h3 hodd
    rw [bmt_snd_padDup hash leaves (by omega)]
    unfold padDup
    rw [if_pos hodd]
  · intro h2 heven
    rw [bmt_snd_padDup hash leaves h2]
    unfold padDup
    rw [if_neg (by omega)]

/-- Witness for C9: on the concrete odd leaf list `["a", "b", "c"]` (with the
identity as the hash function) the returned final state of the argument is
the list with its last element duplicated. -/
theorem c9_mutation_witness :
    (build_merkle_tree (fun s => s) ["a", "b", "c"]).map Prod.snd =
      some ["a", "b", "c", "c"] := by
  have h := (c9_build_merkle_tree_mutates_odd_argument (fun s => s) ["a", "b", "c"]).2.1
    (by decide) (by decide)
  simpa using h

/-- C10. `verify_proof` with an empty proof list reduces to string equality
of the leaf hash with the expected root, and the proof generated for the
sole leaf of a one-leaf tree is exactly the empty list with the root equal
to that leaf. -/
theorem c10_verify_empty_proof_iff_equal_root :
    ∀ (hash : String → String) (leaf_hash expected_root : String),
      (verify_proof hash leaf_hash [] expected_root = true ↔ leaf_hash = expected_root)
      ∧ generate_proof hash [leaf_hash] 0 =
          some ⟨0, leaf_hash, [], leaf_hash⟩ := by
  intro hash leaf_hash expected_root
  constructor
  · simp [verify_proof]
  · simp [generate_proof, build_tree_layers, layersAbove, proofSteps, merkle_tree_root,
      List.getLast!, List.head!]

end Ledger

namespace Ledger

/-! ## Theorems: append-only guard (C7) and manifest (C6) -/

/-- C7. The guard does not fail closed: `except Exception: return None` in
`get_existing_manifest` maps a transport failure to the same `None` as a
well-formed 404, so with a local manifest present and a remote URL
configured, a transport error makes `check_append_only` report success
(`True`) — there is no `RemoteUnavailable` outcome anywhere in the code. -/
theorem c7_guard_swallows_transport_errors :
    get_existing_manifest .transportError = get_existing_manifest .notFound
    ∧ check_append_only (some "1f3870be274f6c49b3e31a0c6728957f")
        (some "https://remote.example") .transportError = .ok true :=
  ⟨rfl, rfl⟩

/-- C6. In every manifest `generate_manifest` produces, `daily_root_sha256`
is indeed the Merkle root passed in, but `core_spec_sha256` and
`profile_sha256` are the literal placeholder `"..."` — never the SHA-256 of
the emitted files: for any hash whose digests have the hex length 64 the
placeholder (length 3) differs from every file digest. -/
theorem c6_manifest_digest_fields :
    ∀ (hash : String → String) (date : String) (files : List EmittedFile)
      (daily_root : String),
      (generate_manifest hash date files daily_root).daily_root_sha256 = daily_root
      ∧ (generate_manifest hash date files daily_root).core_spec_sha256 = "..."
      ∧ (generate_manifest hash date files daily_root).profile_sha256 = "..."
      ∧ ((∀ s, (hash s).length = 64) → ∀ f : EmittedFile,
          (generate_manifest hash date files daily_root).core_spec_sha256 ≠
            compute_file_hash hash f
          ∧ (generate_manifest hash date files daily_root).profile_sha256 ≠
            compute_file_hash hash f) := by
  intro hash date files daily_root
  refine ⟨rfl, rfl, rfl, fun h64 f => ⟨fun hc => ?_, fun hc => ?_⟩⟩
  · have h3 : (("..." : String).length = 64) := by
      rw [show (generate_manifest hash date files daily_root).core_spec_sha256 = "..."
        from rfl] at hc
      rw [hc]
      exact h64 f.content
    exact absurd h3 (by decide)
  · have h3 : (("..." : String).length = 64) := by
      rw [show (generate_manifest hash date files daily_root).profile_sha256 = "..."
        from rfl] at hc
      rw [hc]
      exact h64 f.content
    exact absurd h3 (by decide)

/-- Witness for C6: with a concrete 64-character-digest hash function, the
emitted `core_spec_sha256` differs from the digest of a concrete emitted
file. -/
theorem c6_placeholder_witness :
    (generate_manifest
        (fun _ => "0000000000000000000000000000000000000000000000000000000000000000")
        "2026-01-17" [] "r").core_spec_sha256 ≠
      compute_file_hash
        (fun _ => "0000000000000000000000000000000000000000000000000000000000000000")
        ⟨"core_spec.json", "x"⟩ :=
  ((c6_manifest_digest_fields
      (fun _ => "0000000000000000000000000000000000000000000000000000000000000000")
      "2026-01-17" [] "r").2.2.2 (fun _ => rfl) ⟨"core_spec.json", "x"⟩).1

/-! ## Theorems: chunking (C8) -/

/-- `chunkRecords` on the empty list. -/
theorem chunkRecords_nil {α : Type} : chunkRecords ([] : List α) = [] := by
  rw [chunkRecords]
  simp

/-- Unfolding `chunkRecords` on a non-empty list. -/
theorem chunkRecords_cons_eq {α : Type} (records : List α) (h : records ≠ []) :
    chunkRecords records = records.take 10000 :: chunkRecords (records.drop 10000) := by
  rw [chunkRecords]
  simp [h]

/-- The chunks concatenate back to the input. -/
theorem chunk_flatten {α : Type} (records : List α) :
    (chunkRecords records).flatten = records := by
  suffices h : ∀ (n : Nat) (l : List α), l.length ≤ n →
      (chunkRecords l).flatten = l from h records.length records le_rfl
  intro n
  induction n with
  | zero =>
    intro l hle
    have : l = [] := List.eq_nil_of_length_eq_zero (Nat.le_zero.mp hle)
    subst this
    simp [chunkRecords_nil]
  | succ n ih =>
    intro l hle
    by_cases hl : l = []
    · subst hl
      simp [chunkRecords_nil]
    · rw [chunkRecords_cons_eq l hl]
      have hpos : 0 < l.length := List.length_pos.mpr hl
      have := ih (l.drop 10000) (by simp [List.length_drop]; omega)
      simp [this]

/-- The number of chunks is `⌈records.length / 10000⌉`. -/
theorem chunk_count {α : Type} (records : List α) :
    (chunkRecords records).length = (records.length + 9999) / 10000 := by
  suffices h : ∀ (n : Nat) (l : List α), l.length ≤ n →
      (chunkRecords l).length = (l.length + 9999) / 10000 from
    h records.length records le_rfl
  intro n
  induction n with
  | zero =>
    intro l hle
    have : l = [] := List.eq_nil_of_length_eq_zero (Nat.le_zero.mp hle)
    subst this
    simp [chunkRecords_nil]
  | succ n ih =>
    intro l hle
    by_cases hl : l = []
    · subst hl
      simp [chunkRecords_nil]
    · rw [chunkRecords_cons_eq l hl]
      have hpos : 0 < l.length := List.length_pos.mpr hl
      have := ih (l.drop 10000) (by simp [List.length_drop]; omega)
      simp only [List.length_cons, this, List.length_drop, List.length_take]
      omega

/-- Every chunk holds at most 10 000 records. -/
theorem chunk_sizes {α : Type} (records : List α) :
    ∀ c ∈ chunkRecords records, c.length ≤ 10000 := by
  suffices h : ∀ (n : Nat) (l : List α), l.length ≤ n →
      ∀ c ∈ chunkRecords l, c.length ≤ 10000 from h records.length records le_rfl
  intro n
  induction n with
  | zero =>
    intro l hle
    have : l = [] := List.eq_nil_of_length_eq_zero (Nat.le_zero.mp hle)
    subst this
    simp [chunkRecords_nil]
  | succ n ih =>
    intro l hle
    by_cases hl : l = []
    · subst hl
      simp [chunkRecords_nil]
    · rw [chunkRecords_cons_eq l hl]
      intro c hc
      rcases List.mem_cons.mp hc with h | h
      · subst h
        simp [List.length_take]
      · have hpos : 0 < l.length := List.length_pos.mpr hl
        exact ih (l.drop 10000) (by simp [List.length_drop]; omega) c h

end Ledger

namespace Ledger

/-- The emitted file names are `records_file_name` of `0, 1, 2, …`. -/
theorem records_files_names {α : Type} (records : List α) :
    (records_files records).map Prod.fst =
      (List.range (chunkRecords records).length).map records_file_name := by
  rw [records_files, List.map_map]
  have hcomp : (Prod.fst ∘ fun p : Nat × List α => (records_file_name p.1, p.2)) =
      records_file_name ∘ Prod.fst := rfl
  rw [hcomp, ← List.map_map, List.enum_map_fst]

/-- The emitted file contents are the chunks, in order. -/
theorem records_files_chunks {α : Type} (records : List α) :
    (records_files records).map Prod.snd = chunkRecords records := by
  rw [records_files, List.map_map]
  have hcomp : (Prod.snd ∘ fun p : Nat × List α => (records_file_name p.1, p.2)) =
      (Prod.snd : Nat × List α → List α) := rfl
  rw [hcomp, List.enum_map_snd]

/-- A non-empty replicate. -/
theorem replicate_ne_nil_of_pos {α : Type} (k : Nat) (x : α) (hk : k ≠ 0) :
    List.replicate k x ≠ [] :=
  fun h => hk (by simpa using congrArg List.length h)

/-- The chunks of 20 001 identical records. -/
theorem chunkRecords_replicate_20001 {α : Type} (r : α) :
    chunkRecords (List.replicate 20001 r) =
      [List.replicate 10000 r, List.replicate 10000 r, List.replicate 1 r] := by
  have h1 : chunkRecords (List.replicate 20001 r) =
      List.replicate 10000 r :: chunkRecords (List.replicate 10001 r) := by
    rw [chunkRecords_cons_eq _ (replicate_ne_nil_of_pos _ _ (by norm_num)),
      List.take_replicate, List.drop_replicate]
    norm_num
  have h2 : chunkRecords (List.replicate 10001 r) =
      List.replicate 10000 r :: chunkRecords (List.replicate 1 r) := by
    rw [chunkRecords_cons_eq _ (replicate_ne_nil_of_pos _ _ (by norm_num)),
      List.take_replicate, List.drop_replicate]
    norm_num
  have h3 : chunkRecords (List.replicate 1 r) = [List.replicate 1 r] := by
    rw [chunkRecords_cons_eq _ (replicate_ne_nil_of_pos _ _ (by norm_num)),
      List.take_replicate, List.drop_replicate]
    norm_num [chunkRecords_nil]
  rw [h1, h2, h3]

/-- C8 (amended: the file number is zero-padded to *at least* three digits —
`records-000.jsonl` through `records-999.jsonl`, wider numbers keeping all
their digits). The sorted records are emitted as `⌈n / 10000⌉` files named
`records_file_name 0, 1, 2, …` in order, each holding at most 10 000
records, whose concatenation in name order is the input sequence; 20 001
records yield exactly `records-000.jsonl` (10 000), `records-001.jsonl`
(10 000) and `records-002.jsonl` (1). -/
theorem c8_records_files_chunking {α : Type} (records : List α) (r : α) :
    ((records_files records).length = (records.length + 9999) / 10000)
    ∧ ((records_files records).map Prod.fst =
        (List.range ((records.length + 9999) / 10000)).map records_file_name)
    ∧ (∀ p ∈ records_files records, p.2.length ≤ 10000)
    ∧ (((records_files records).map Prod.snd).flatten = records)
    ∧ ((records_files (List.replicate 20001 r)).map (fun p => (p.1, p.2.length)) =
        [("records-000.jsonl", 10000), ("records-001.jsonl", 10000),
         ("records-002.jsonl", 1)]) := by
  refine ⟨?_, ?_, ?_, ?_, ?_⟩
  · simp [records_files, chunk_count]
  · rw [records_files_names, chunk_count]
  · intro p hp
    obtain ⟨q, hq, hfq⟩ := List.mem_map.mp hp
    have hq2 : q.2 ∈ chunkRecords records := by
      rw [← List.enum_map_snd (chunkRecords records)]
      exact List.mem_map_of_mem Prod.snd hq
    have : p.2 = q.2 := by rw [← hfq]
    rw [this]
    exact chunk_sizes records q.2 hq2
  · rw [records_files_chunks, chunk_flatten]
  · simp only [records_files, chunkRecords_replicate_20001, List.enum, List.enumFrom,
      List.map_cons, List.map_nil, List.length_replicate]
    norm_num
    refine ⟨by decide, by decide, by decide⟩

/-- Witness for C8, the concrete 20 001-record instance. -/
theorem c8_chunking_witness :
    (records_files (List.replicate 20001 ())).map (fun p => (p.1, p.2.length)) =
      [("records-000.jsonl", 10000), ("records-001.jsonl", 10000),
       ("records-002.jsonl", 1)] :=
  (c8_records_files_chunking (List.replicate 20001 ()) ()).2.2.2.2

/-- Counterexample for C8 as stated: not every emitted file name has a
three-digit `NNN`. With 10 000 001 records there are 1001 files and file
number 1000 is named `records-1000.jsonl` — four digits (length 18), not of
the 17-character `records-NNN.jsonl` shape that three-digit names have. -/
theorem c8_fourth_digit_counterexample :
    "records-1000.jsonl" ∈ (records_files (List.replicate 10000001 ())).map Prod.fst
    ∧ ("records-1000.jsonl" : String).length ≠ ("records-000.jsonl" : String).length := by
  constructor
  · rw [records_files_names, chunk_count]
    have h1 : (List.replicate 10000001 ()).length = 10000001 :=
      List.length_replicate 10000001 ()
    rw [h1]
    have h2 : (10000001 + 9999) / 10000 = 1001 := by norm_num
    rw [h2]
    exact List.mem_map.mpr ⟨1000, List.mem_range.mpr (by norm_num), by decide⟩
  · decide

end Ledger

namespace Ledger

/-! ## Concrete fixtures for the remaining claims -/

/-- External calls instantiated trivially (no claim below exercises the IDNA
or datetime paths). -/
def ext0 : Ext :=
  ⟨fun _ => none, fun _ => none⟩

/-- A one-field profile: `canonical_fields = ["domain"]`, `trim_ascii`. -/
def profileSingleDomain : Profile :=
  { required_fields := ["domain"]
    canonical_fields := ["domain"]
    normalizers := [("domain", "trim_ascii")]
    sort_keys := ["domain"] }

/-- Decidable equality of `Except` results (for concrete evaluation). -/
instance exceptDecEq {ε α : Type} [DecidableEq ε] [DecidableEq α] :
    DecidableEq (Except ε α) := fun a b =>
  match a, b with
  | .ok x, .ok y =>
    if h : x = y then .isTrue (by rw [h]) else .isFalse (fun hc => h (by cases hc; rfl))
  | .error e, .error e' =>
    if h : e = e' then .isTrue (by rw [h]) else .isFalse (fun hc => h (by cases hc; rfl))
  | .ok _, .error _ => .isFalse (fun hc => by cases hc)
  | .error _, .ok _ => .isFalse (fun hc => by cases hc)

/-! ## Theorems: proof-materializer leaf recomputation (C3) -/

/-- The `MerkleTree` root of a single leaf is that leaf. -/
theorem merkle_tree_root_singleton (hash : String → String) (x : String) :
    merkle_tree_root hash [x] = x := by
  simp [merkle_tree_root, build_tree_layers, layersAbove, List.getLast!, List.head!]

/-- C3. `generate_proofs_for_bundle` recomputes leaves from
`deterministic_json(record)`, not from the canonical bytes the builder
committed: on the single-record bundle `{"domain": "a.com"}` the builder's
canonical bytes are `"a.com\n"` while the recomputation hashes the JSON
encoding, so for every injective hash the recomputed leaf — and hence the
recomputed root — differs from the written root and the `RootMismatch`
`ValueError` fires even though the emitted file is exactly what was
committed. -/
theorem c3_recomputed_leaves_diverge :
    canonicalize_record ext0 [("domain", "a.com")] profileSingleDomain =
      .ok "a.com\n"
    ∧ deterministic_json [("domain", "a.com")] = "\x7b\"domain\":\"a.com\"\x7d"
    ∧ (∀ hash : String → String, Function.Injective hash →
        recomputed_leaves hash [[("domain", "a.com")]] ≠ [compute_leaf hash "a.com\n"]
        ∧ root_mismatch hash [[("domain", "a.com")]] (compute_leaf hash "a.com\n") = true) := by
  refine ⟨by decide, by decide, fun hash hinj => ?_⟩
  have hne : deterministic_json [("domain", "a.com")] ≠ "a.com\n" := by decide
  have hleaf : compute_leaf hash (deterministic_json [("domain", "a.com")]) ≠
      compute_leaf hash "a.com\n" := fun hc => hne (hinj hc)
  constructor
  · intro hc
    simp only [recomputed_leaves, List.map_cons, List.map_nil, List.cons.injEq,
      and_true] at hc
    exact hleaf hc
  · simp only [root_mismatch, recomputed_leaves, List.map_cons, List.map_nil,
      merkle_tree_root_singleton, bne_iff_ne, ne_eq]
    exact hleaf

/-- Witness for C3, at the injective hash `fun s => s`: the recomputed leaf
list differs from the builder's committed leaf list. -/
theorem c3_divergence_witness :
    recomputed_leaves (fun s => s) [[("domain", "a.com")]] ≠
      [compute_leaf (fun s => s) "a.com\n"] :=
  ((c3_recomputed_leaves_diverge.2.2 (fun s => s) (fun _ _ h => h)).1)

end Ledger

namespace Ledger

/-! ## Theorems: absent fields in `normalize_record` (C5) -/

/-- Lookup skips a head entry with a different key. -/
theorem lookup_cons_ne {β : Type} (g f : String) (v : β) (l : List (String × β))
    (h : g ≠ f) : List.lookup g ((f, v) :: l) = List.lookup g l := by
  simp [List.lookup, beq_false_of_ne h]

/-- Lookup finds a head entry with the same key. -/
theorem lookup_cons_self {β : Type} (f : String) (v : β) (l : List (String × β)) :
    List.lookup f ((f, v) :: l) = some v := by
  simp [List.lookup]

/-- A successful lookup survives appending. -/
theorem lookup_append_some {β : Type} (f : String) (v : β) :
    ∀ (l m : List (String × β)), List.lookup f l = some v →
      List.lookup f (l ++ m) = some v
  | [], _, h => by simp [List.lookup] at h
  | (k, b) :: t, m, h => by
    by_cases hk : f = k
    · subst hk
      rw [lookup_cons_self] at h
      rw [List.cons_append, lookup_cons_self]
      exact h
    · rw [lookup_cons_ne f k b t hk] at h
      rw [List.cons_append, lookup_cons_ne f k b (t ++ m) hk]
      exact lookup_append_some f v t m h

/-- Appending the missing key at the end makes it found. -/
theorem lookup_append_none_self {β : Type} (f : String) (w : β) :
    ∀ l : List (String × β), List.lookup f l = none →
      List.lookup f (l ++ [(f, w)]) = some w
  | [], _ => by simp [lookup_cons_self]
  | (k, b) :: t, h => by
    by_cases hk : f = k
    · subst hk
      rw [lookup_cons_self] at h
      simp at h
    · rw [lookup_cons_ne f k b t hk] at h
      rw [List.cons_append, lookup_cons_ne f k b _ hk]
      exact lookup_append_none_self f w t h

/-- Appending a different key preserves a failed lookup. -/
theorem lookup_append_none_ne {β : Type} (f g : String) (w : β) (hfg : f ≠ g) :
    ∀ l : List (String × β), List.lookup f l = none →
      List.lookup f (l ++ [(g, w)]) = none
  | [], _ => by simp [List.lookup, beq_false_of_ne hfg]
  | (k, b) :: t, h => by
    by_cases hk : f = k
    · subst hk
      rw [lookup_cons_self] at h
      simp at h
    · rw [lookup_cons_ne f k b t hk] at h
      rw [List.cons_append, lookup_cons_ne f k b _ hk]
      exact lookup_append_none_ne f g w hfg t h

/-- The canonical-fields fill pass preserves fields already normalized. -/
theorem fillCanonical_preserves (f v : String) :
    ∀ (fields : List String) (normalized : List (String × String)),
      List.lookup f normalized = some v →
      List.lookup f (fillCanonical normalized fields) = some v
  | [], _, h => h
  | g :: rest, normalized, h => by
    simp only [fillCanonical]
    by_cases hg : (List.lookup g normalized).isSome
    · rw [if_pos hg]
      exact fillCanonical_preserves f v rest normalized h
    · rw [if_neg hg]
      exact fillCanonical_preserves f v rest _
        (lookup_append_some f v normalized [(g, "")] h)

/-- The canonical-fields fill pass gives an un-normalized canonical field the
empty string. -/
theorem fillCanonical_fills (f : String) :
    ∀ (fields : List String) (normalized : List (String × String)),
      List.lookup f normalized = none → f ∈ fields →
      List.lookup f (fillCanonical normalized fields) = some ""
  | [], _, _, hmem => absurd hmem (List.not_mem_nil f)
  | g :: rest, normalized, hnone, hmem => by
    simp only [fillCanonical]
    by_cases hgf : g = f
    · subst hgf
      rw [if_neg (by simp [hnone])]
      exact fillCanonical_preserves g "" rest _
        (lookup_append_none_self g "" normalized hnone)
    · have hmem' : f ∈ rest := by
        cases List.mem_cons.mp hmem with
        | inl h => exact absurd h.symm hgf
        | inr h => exact h
      by_cases hg : (List.lookup g normalized).isSome
      · rw [if_pos hg]
        exact fillCanonical_fills f rest normalized hnone hmem'
      · rw [if_neg hg]
        exact fillCanonical_fills f rest _
          (lookup_append_none_ne f g "" (fun he => hgf he.symm) normalized hnone) hmem'

/-- When every normalizer entry for an absent field `f` is `_optional`, the
normalizer loop behaves as if the record carried `f` with an explicit empty
string: both run the normalizer on `""`. -/
theorem normalizeLoop_absent_optional (ext : Ext) (record : Record) (f : String)
    (habs : List.lookup f record = none) :
    ∀ entries : List (String × String),
      (∀ m, (f, m) ∈ entries → strEndsWith m "_optional" = true) →
      normalizeLoop ext record entries = normalizeLoop ext ((f, "") :: record) entries
  | [], _ => rfl
  | (g, m) :: rest, hopt => by
    have hrec := normalizeLoop_absent_optional ext record f habs rest
      (fun m' hm' => hopt m' (List.mem_cons_of_mem _ hm'))
    by_cases hgf : g = f
    · subst hgf
      have hm : strEndsWith m "_optional" = true := hopt m (List.mem_cons_self _ _)
      simp only [normalizeLoop, habs, hm, lookup_cons_self, Option.isSome_none,
        Option.isSome_some, Bool.false_or, Bool.true_or, Bool.or_true,
        Option.getD_none, Option.getD_some, if_true]
      rw [hrec]
    · have hl : List.lookup g ((f, "") :: record) = List.lookup g record :=
        lookup_cons_ne g f "" record hgf
      simp only [normalizeLoop, hl]
      rw [hrec]

/-- When every normalizer entry for an absent field `f` is non-`_optional`,
the loop skips those entries entirely — the normalizer is not invoked and can
not fail — so the loop equals the loop over the entries with key `f` removed. -/
theorem normalizeLoop_skip_nonopt (ext : Ext) (record : Record) (f : String)
    (habs : List.lookup f record = none) :
    ∀ entries : List (String × String),
      (∀ m, (f, m) ∈ entries → strEndsWith m "_optional" = false) →
      normalizeLoop ext record entries =
        normalizeLoop ext record (entries.filter (fun p => p.1 ≠ f))
  | [], _ => rfl
  | (g, m) :: rest, hno => by
    have hrec := normalizeLoop_skip_nonopt ext record f habs rest
      (fun m' hm' => hno m' (List.mem_cons_of_mem _ hm'))
    by_cases hgf : g = f
    · subst hgf
      have hm : strEndsWith m "_optional" = false := hno m (List.mem_cons_self _ _)
      have hfilter : ((g, m) :: rest).filter (fun p => p.1 ≠ g) =
          rest.filter (fun p => p.1 ≠ g) := by simp
      have hcond : ((List.lookup g record).isSome || strEndsWith m "_optional") = false := by
        rw [habs, hm]
        rfl
      rw [hfilter]
      simp only [normalizeLoop, hcond]
      simpa using hrec
    · have hfilter : ((g, m) :: rest).filter (fun p => p.1 ≠ f) =
          (g, m) :: rest.filter (fun p => p.1 ≠ f) := by simp [hgf]
      rw [hfilter]
      simp only [normalizeLoop]
      rw [hrec]

/-- Under the conditions of `normalizeLoop_skip_nonopt`, a successful loop
result carries no entry for `f`. -/
theorem normalizeLoop_no_key (ext : Ext) (record : Record) (f : String)
    (habs : List.lookup f record = none) :
    ∀ entries : List (String × String),
      (∀ m, (f, m) ∈ entries → strEndsWith m "_optional" = false) →
      ∀ res, normalizeLoop ext record entries = .ok res → List.lookup f res = none
  | [], _, res, h => by
    cases h
    rfl
  | (g, m) :: rest, hno, res, h => by
    have hnorec := normalizeLoop_no_key ext record f habs rest
      (fun m' hm' => hno m' (List.mem_cons_of_mem _ hm'))
    by_cases hgf : g = f
    · subst hgf
      have hm : strEndsWith m "_optional" = false := hno m (List.mem_cons_self _ _)
      have hcond : ((List.lookup g record).isSome || strEndsWith m "_optional") = false := by
        rw [habs, hm]
        rfl
      simp only [normalizeLoop, hcond] at h
      simp at h
      exact hnorec res h
    · simp only [normalizeLoop] at h
      split at h
      · cases happ : apply ext m ((List.lookup g record).getD "") with
        | error e =>
          rw [happ] at h
          simp at h
        | ok v =>
          rw [happ] at h
          cases hrest : normalizeLoop ext record rest with
          | error e =>
            rw [hrest] at h
            simp at h
          | ok tail =>
            rw [hrest] at h
            simp only [Except.ok.injEq] at h
            subst h
            rw [lookup_cons_ne f g v tail (fun he => hgf he.symm)]
            exact hnorec tail hrest
      · exact hnorec res h

/-- C5 (amended). An absent field `f` with a normalizer entry is *not*
uniformly treated as empty input: when its normalizer name ends in
`_optional`, `normalize_record` coincides with the record extended by an
explicit `f ↦ ""` (the normalizer runs on the empty string); when it does
not, the entry is skipped entirely — the normalizer (e.g. the validating
`lower_hex`) is never invoked, no `InvalidFormat` can arise from `f`, and
`f`, if canonical, is filled with `""` by the canonical-fields pass. -/
theorem c5_absent_field_dispatch (ext : Ext) (profile : Profile) (record : Record)
    (f : String) (habs : List.lookup f record = none) :
    ((∀ m, (f, m) ∈ profile.normalizers → strEndsWith m "_optional" = true) →
      normalize_record ext record profile = normalize_record ext ((f, "") :: record) profile)
    ∧ ((∀ m, (f, m) ∈ profile.normalizers → strEndsWith m "_optional" = false) →
        (normalize_record ext record profile =
          normalize_record ext record
            { profile with normalizers := profile.normalizers.filter (fun p => p.1 ≠ f) })
        ∧ (f ∈ profile.canonical_fields → ∀ res,
            normalize_record ext record profile = .ok res →
            List.lookup f res = some "")) := by
  refine ⟨fun hopt => ?_, fun hno => ⟨?_, fun hmem res hres => ?_⟩⟩
  · unfold normalize_record
    rw [normalizeLoop_absent_optional ext record f habs profile.normalizers hopt]
  · unfold normalize_record
    rw [normalizeLoop_skip_nonopt ext record f habs profile.normalizers hno]
  · unfold normalize_record at hres
    cases hloop : normalizeLoop ext record profile.normalizers with
    | error e =>
      rw [hloop] at hres
      simp at hres
    | ok normalized =>
      rw [hloop] at hres
      simp only [Except.ok.injEq] at hres
      subst hres
      exact fillCanonical_fills f profile.canonical_fields normalized
        (normalizeLoop_no_key ext record f habs profile.normalizers hno normalized hloop)
        hmem

/-- A profile whose only normalizer is the validating, non-optional
`lower_hex` on the canonical field `txid`. -/
def profileHexTxid : Profile :=
  { required_fields := []
    canonical_fields := ["txid"]
    normalizers := [("txid", "lower_hex")]
    sort_keys := [] }

/-- Counterexample for C5 as stated: under `profileHexTxid` the absent field
normalizes to `.ok` with `txid ↦ ""` (no normalizer invoked), while an
explicit empty string — the claimed equivalent — fails `InvalidFormat`
exactly as `lower_hex` on `""` does. -/
theorem c5_absent_vs_empty_counterexample :
    normalize_record ext0 [] profileHexTxid = .ok [("txid", "")]
    ∧ normalize_record ext0 [("txid", "")] profileHexTxid = .error (.invalidFormat "")
    ∧ apply ext0 "lower_hex" "" = .error (.invalidFormat "") := by
  refine ⟨by decide, by decide, by decide⟩

/-- A profile whose only normalizer entry is `_optional`. -/
def profileOptionalMemo : Profile :=
  { required_fields := []
    canonical_fields := ["memo"]
    normalizers := [("memo", "trim_ascii_optional")]
    sort_keys := [] }

/-- Witness for C5 (amended), optional branch at a concrete input: with the
sole entry `memo ↦ trim_ascii_optional`, the absent field and the explicit
empty string normalize identically. -/
theorem c5_dispatch_witness :
    normalize_record ext0 [] profileOptionalMemo =
      normalize_record ext0 [("memo", "")] profileOptionalMemo :=
  (c5_absent_field_dispatch ext0 profileOptionalMemo [] "memo" rfl).1
    (fun m hm => by
      have h2 := List.mem_singleton.mp hm
      injection h2 with h3 h4
      rw [h4]
      decide)

end Ledger

namespace Ledger

/-! ## Theorems: sort-stage order independence (C4) -/

/-- Lexicographic strictness is asymmetric. -/
theorem strLtChars_asym : ∀ x y, strLtChars x y = true → strLtChars y x = false
  | [], [], h => by simp [strLtChars] at h
  | [], _ :: _, _ => by simp [strLtChars]
  | _ :: _, [], h => by simp [strLtChars] at h
  | a :: ta, b :: tb, h => by
    simp only [strLtChars] at h ⊢
    by_cases hab : a < b
    · rw [if_neg (lt_asymm hab), if_pos hab]
    · rw [if_neg hab] at h
      by_cases hba : b < a
      · rw [if_pos hba] at h
        simp at h
      · rw [if_neg hba] at h
        rw [if_neg hba, if_neg hab]
        exact strLtChars_asym ta tb h

/-- Lexicographic strictness is transitive. -/
theorem strLtChars_trans : ∀ x y z,
    strLtChars x y = true → strLtChars y z = true → strLtChars x z = true
  | [], [], _, h1, _ => by simp [strLtChars] at h1
  | [], _ :: _, [], _, h2 => by simp [strLtChars] at h2
  | [], _ :: _, _ :: _, _, _ => by simp [strLtChars]
  | _ :: _, [], _, h1, _ => by simp [strLtChars] at h1
  | _ :: _, _ :: _, [], _, h2 => by simp [strLtChars] at h2
  | a :: ta, b :: tb, c :: tc, h1, h2 => by
    simp only [strLtChars] at h1 h2 ⊢
    by_cases hab : a < b
    · by_cases hbc : b < c
      · rw [if_pos (lt_trans hab hbc)]
      · rw [if_neg hbc] at h2
        by_cases hcb : c < b
        · rw [if_pos hcb] at h2
          simp at h2
        · have hbceq : b = c := le_antisymm (not_lt.mp hcb) (not_lt.mp hbc)
          rw [if_pos (hbceq ▸ hab)]
    · rw [if_neg hab] at h1
      by_cases hba : b < a
      · rw [if_pos hba] at h1
        simp at h1
      · rw [if_neg hba] at h1
        have habeq : a = b := le_antisymm (not_lt.mp hba) (not_lt.mp hab)
        subst habeq
        by_cases hac : a < c
        · rw [if_pos hac]
        · rw [if_neg hac] at h2 ⊢
          by_cases hca : c < a
          · rw [if_pos hca] at h2
            simp at h2
          · rw [if_neg hca] at h2 ⊢
            exact strLtChars_trans ta tb tc h1 h2

/-- Two lists neither of which lexicographically precedes the other are
equal. -/
theorem strLtChars_eq_of_not : ∀ x y,
    strLtChars x y = false → strLtChars y x = false → x = y
  | [], [], _, _ => rfl
  | [], _ :: _, h1, _ => by simp [strLtChars] at h1
  | _ :: _, [], _, h2 => by simp [strLtChars] at h2
  | a :: ta, b :: tb, h1, h2 => by
    simp only [strLtChars] at h1 h2
    by_cases hab : a < b
    · rw [if_pos hab] at h1
      simp at h1
    · by_cases hba : b < a
      · rw [if_pos hba] at h2
        simp at h2
      · rw [if_neg hab, if_neg hba] at h1
        rw [if_neg hba, if_neg hab] at h2
        have : a = b := le_antisymm (not_lt.mp hba) (not_lt.mp hab)
        rw [this, strLtChars_eq_of_not ta tb h1 h2]

/-- `strLt` is asymmetric. -/
theorem strLt_asym (a b : String) (h : strLt a b = true) : strLt b a = false :=
  strLtChars_asym a.data b.data h

/-- `strLt` is transitive. -/
theorem strLt_trans (a b c : String) (h1 : strLt a b = true) (h2 : strLt b c = true) :
    strLt a c = true :=
  strLtChars_trans a.data b.data c.data h1 h2

/-- Strings neither of which precedes the other are equal. -/
theorem str_eq_of_not_lt (a b : String) (h1 : strLt a b = false)
    (h2 : strLt b a = false) : a = b := by
  cases a with
  | mk da =>
    cases b with
    | mk db =>
      have := strLtChars_eq_of_not da db h1 h2
      rw [this]

/-- Tuple comparison is total (in flip form). -/
theorem tupleLe_total : ∀ x y, tupleLe x y = false → tupleLe y x = true
  | [], _, h => by simp [tupleLe] at h
  | _ :: _, [], _ => by simp [tupleLe]
  | a :: ta, b :: tb, h => by
    simp only [tupleLe] at h ⊢
    by_cases hab : strLt a b = true
    · rw [if_pos hab] at h
      simp at h
    · rw [if_neg hab] at h
      by_cases hba : strLt b a = true
      · rw [if_pos hba]
      · rw [if_neg hba] at h
        rw [if_neg hba, if_neg hab]
        exact tupleLe_total ta tb h

/-- Tuple comparison is transitive. -/
theorem tupleLe_trans : ∀ x y z,
    tupleLe x y = true → tupleLe y z = true → tupleLe x z = true
  | [], _, _, _, _ => by simp [tupleLe]
  | _ :: _, [], _, h1, _ => by simp [tupleLe] at h1
  | _ :: _, _ :: _, [], _, h2 => by simp [tupleLe] at h2
  | a :: ta, b :: tb, c :: tc, h1, h2 => by
    simp only [tupleLe] at h1 h2 ⊢
    by_cases hab : strLt a b = true
    · by_cases hbc : strLt b c = true
      · rw [if_pos (strLt_trans a b c hab hbc)]
      · rw [if_neg hbc] at h2
        by_cases hcb : strLt c b = true
        · rw [if_pos hcb] at h2
          simp at h2
        · have hbceq : b = c := str_eq_of_not_lt b c (by simpa using hbc) (by simpa using hcb)
          rw [if_pos (hbceq ▸ hab)]
    · rw [if_neg hab] at h1
      by_cases hba : strLt b a = true
      · rw [if_pos hba] at h1
        simp at h1
      · rw [if_neg hba] at h1
        have habeq : a = b := str_eq_of_not_lt a b (by simpa using hab) (by simpa using hba)
        subst habeq
        by_cases hac : strLt a c = true
        · rw [if_pos hac]
        · rw [if_neg hac] at h2 ⊢
          by_cases hca : strLt c a = true
          · rw [if_pos hca] at h2
            simp at h2
          · rw [if_neg hca] at h2 ⊢
            exact tupleLe_trans ta tb tc h1 h2

/-- Tuple comparison is antisymmetric. -/
theorem tupleLe_antisymm : ∀ x y, tupleLe x y = true → tupleLe y x = true → x = y
  | [], [], _, _ => rfl
  | [], _ :: _, _, h2 => by simp [tupleLe] at h2
  | _ :: _, [], h1, _ => by simp [tupleLe] at h1
  | a :: ta, b :: tb, h1, h2 => by
    simp only [tupleLe] at h1 h2
    by_cases hab : strLt a b = true
    · have hba := strLt_asym a b hab
      rw [if_neg (by simp [hba]), if_pos hab] at h2
      simp at h2
    · rw [if_neg hab] at h1
      by_cases hba : strLt b a = true
      · rw [if_pos hba] at h1
        simp at h1
      · rw [if_neg hba] at h1
        rw [if_neg hba, if_neg hab] at h2
        have : a = b := str_eq_of_not_lt a b (by simpa using hab) (by simpa using hba)
        rw [this, tupleLe_antisymm ta tb h1 h2]

/-- Stable insertion permutes. -/
theorem insertSorted_perm {α : Type} (le : α → α → Bool) (a : α) :
    ∀ l : List α, (insertSorted le a l).Perm (a :: l)
  | [] => List.Perm.refl _
  | b :: t => by
    simp only [insertSorted]
    by_cases h : le a b = true
    · rw [if_pos h]
    · rw [if_neg h]
      exact (List.Perm.cons b (insertSorted_perm le a t)).trans (List.Perm.swap a b t)

/-- The stable sort permutes. -/
theorem stableSort_perm {α : Type} (le : α → α → Bool) :
    ∀ l : List α, (stableSort le l).Perm l
  | [] => List.Perm.refl _
  | a :: t => (insertSorted_perm le a (stableSort le t)).trans
      (List.Perm.cons a (stableSort_perm le t))

/-- Membership after stable insertion. -/
theorem mem_insertSorted {α : Type} (le : α → α → Bool) (a x : α) (l : List α) :
    x ∈ insertSorted le a l ↔ x = a ∨ x ∈ l := by
  have := (insertSorted_perm le a l).mem_iff (a := x)
  simpa using this

/-- Stable insertion preserves sortedness (for a total, transitive `le`). -/
theorem insertSorted_pairwise {α : Type} (le : α → α → Bool)
    (htrans : ∀ a b c, le a b = true → le b c = true → le a c = true)
    (htot : ∀ a b, le a b = false → le b a = true) (a : α) :
    ∀ l : List α, l.Pairwise (fun x y => le x y = true) →
      (insertSorted le a l).Pairwise (fun x y => le x y = true)
  | [], _ => by simp [insertSorted]
  | b :: t, hp => by
    obtain ⟨hb, hpt⟩ := List.pairwise_cons.mp hp
    simp only [insertSorted]
    by_cases h : le a b = true
    · rw [if_pos h]
      refine List.Pairwise.cons ?_ hp
      intro x hx
      rcases List.mem_cons.mp hx with rfl | hxt
      · exact h
      · exact htrans a b x h (hb x hxt)
    · rw [if_neg h]
      refine List.Pairwise.cons ?_ (insertSorted_pairwise le htrans htot a t hpt)
      intro x hx
      rcases (mem_insertSorted le a x t).mp hx with heq | hxt
      · subst heq
        exact htot x b (by simpa using h)
      · exact hb x hxt

/-- The stable sort sorts (for a total, transitive `le`). -/
theorem stableSort_pairwise {α : Type} (le : α → α → Bool)
    (htrans : ∀ a b c, le a b = true → le b c = true → le a c = true)
    (htot : ∀ a b, le a b = false → le b a = true) :
    ∀ l : List α, (stableSort le l).Pairwise (fun x y => le x y = true)
  | [] => List.Pairwise.nil
  | a :: t => insertSorted_pairwise le htrans htot a (stableSort le t)
      (stableSort_pairwise le htrans htot t)

/-- Two sorted lists that are permutations of each other, on which `le` is
antisymmetric, are equal. -/
theorem sorted_perm_unique {α : Type} (le : α → α → Bool) :
    ∀ (l₁ l₂ : List α), l₁.Perm l₂ →
      l₁.Pairwise (fun x y => le x y = true) →
      l₂.Pairwise (fun x y => le x y = true) →
      (∀ a ∈ l₁, ∀ b ∈ l₁, le a b = true → le b a = true → a = b) →
      l₁ = l₂
  | [], l₂, hperm, _, _, _ => hperm.nil_eq
  | a :: t₁, l₂, hperm, hp₁, hp₂, hanti => by
    cases l₂ with
    | nil =>
      have := hperm.eq_nil
      simp at this
    | cons b t₂ =>
      obtain ⟨ha₁, hpt₁⟩ := List.pairwise_cons.mp hp₁
      obtain ⟨hb₂, hpt₂⟩ := List.pairwise_cons.mp hp₂
      have hab : a = b := by
        by_cases heq : a = b
        · exact heq
        · have hain : a ∈ b :: t₂ := hperm.mem_iff.mp (List.mem_cons_self a t₁)
          have hbin : b ∈ a :: t₁ := hperm.symm.mem_iff.mp (List.mem_cons_self b t₂)
          have hat₂ : a ∈ t₂ := by
            rcases List.mem_cons.mp hain with h | h
            · exact absurd h heq
            · exact h
          have hbt₁ : b ∈ t₁ := by
            rcases List.mem_cons.mp hbin with h | h
            · exact absurd h.symm heq
            · exact h
          exact hanti a (List.mem_cons_self a t₁) b (List.mem_cons_of_mem a hbt₁)
            (ha₁ b hbt₁) (hb₂ a hat₂)
      subst hab
      have htail : t₁.Perm t₂ := hperm.cons_inv
      have hrec : t₁ = t₂ := sorted_perm_unique le t₁ t₂ htail hpt₁ hpt₂
        (fun x hx y hy => hanti x (List.mem_cons_of_mem a hx) y (List.mem_cons_of_mem a hy))
      rw [hrec]

end Ledger

namespace Ledger

/-- The key CPython's decorate-sort computes for a record (total here; the
build aborts earlier when any key raises, which the `isOk` hypotheses below
exclude). -/
def keyOf (ext : Ext) (profile : Profile) (r : Record) : List String :=
  match sort_key ext r profile with
  | .ok k => k
  | .error _ => []

/-- A non-raising sort key is `keyOf`. -/
theorem sort_key_eq_keyOf (ext : Ext) (profile : Profile) (r : Record)
    (h : (sort_key ext r profile).isOk = true) :
    sort_key ext r profile = .ok (keyOf ext profile r) := by
  cases hsk : sort_key ext r profile with
  | ok k => simp [keyOf, hsk]
  | error e =>
    rw [hsk] at h
    simp [Except.isOk, Except.toBool] at h

/-- `Except.map` on a success. -/
theorem except_map_ok {ε α β : Type} (f : α → β) (a : α) :
    Except.map f (.ok a : Except ε α) = .ok (f a) := rfl

/-- Bind on a success. -/
theorem except_bind_ok {ε α β : Type} (a : α) (f : α → Except ε β) :
    ((.ok a : Except ε α) >>= f) = f a := rfl

/-- When every key succeeds, the decorate pass is a plain `map`. -/
theorem mapM_keyed (ext : Ext) (profile : Profile) :
    ∀ l : List Record, (∀ r ∈ l, (sort_key ext r profile).isOk = true) →
      (l.mapM (fun r => (sort_key ext r profile).map (fun k => (k, r)))) =
        .ok (l.map (fun r => (keyOf ext profile r, r)))
  | [], _ => rfl
  | r :: rest, hok => by
    have h1 := sort_key_eq_keyOf ext profile r (hok r (List.mem_cons_self _ _))
    have h2 := mapM_keyed ext profile rest (fun x hx => hok x (List.mem_cons_of_mem _ hx))
    rw [List.mapM_cons, h1, except_map_ok, except_bind_ok, h2, except_bind_ok]
    rfl

/-- When every key succeeds, `sortRecords` is the stable sort of the
decorated list. -/
theorem sortRecords_eq_of_ok (ext : Ext) (profile : Profile) (l : List Record)
    (hok : ∀ r ∈ l, (sort_key ext r profile).isOk = true) :
    sortRecords ext profile l =
      .ok ((stableSort (fun a b => tupleLe a.1 b.1)
        (l.map (fun r => (keyOf ext profile r, r)))).map Prod.snd) := by
  unfold sortRecords
  rw [mapM_keyed ext profile l hok]

/-- C4 (amended: provided the sort keys separate the records — on inputs
with distinct records of equal sort key, CPython's stable sort preserves the
input order, so a permutation changes the output, see the counterexample).
For every permutation of the input list on which all sort keys succeed and
the key function is injective, the sorted record sequence and hence the
daily root are unchanged. -/
theorem c4_sort_permutation_invariant (ext : Ext) (profile : Profile)
    (l l' : List Record) (hperm : l.Perm l')
    (hok : ∀ r ∈ l, (sort_key ext r profile).isOk = true)
    (hinj : ∀ a ∈ l, ∀ b ∈ l, sort_key ext a profile = sort_key ext b profile → a = b) :
    sortRecords ext profile l = sortRecords ext profile l'
    ∧ ∀ hash : String → String,
        bundle_root ext hash profile l = bundle_root ext hash profile l' := by
  have hok' : ∀ r ∈ l', (sort_key ext r profile).isOk = true :=
    fun r hr => hok r (hperm.mem_iff.mpr hr)
  have hletrans : ∀ a b c : List String × Record, tupleLe a.1 b.1 = true →
      tupleLe b.1 c.1 = true → tupleLe a.1 c.1 = true :=
    fun a b c => tupleLe_trans a.1 b.1 c.1
  have hletot : ∀ a b : List String × Record, tupleLe a.1 b.1 = false →
      tupleLe b.1 a.1 = true :=
    fun a b => tupleLe_total a.1 b.1
  have hK : (l.map (fun r => (keyOf ext profile r, r))).Perm
      (l'.map (fun r => (keyOf ext profile r, r))) := hperm.map _
  have hS : (stableSort (fun a b : List String × Record => tupleLe a.1 b.1)
        (l.map (fun r => (keyOf ext profile r, r)))).Perm
      (stableSort (fun a b : List String × Record => tupleLe a.1 b.1)
        (l'.map (fun r => (keyOf ext profile r, r)))) :=
    ((stableSort_perm _ _).trans hK).trans (stableSort_perm _ _).symm
  have hsorted1 := stableSort_pairwise
    (fun a b : List String × Record => tupleLe a.1 b.1) hletrans hletot
    (l.map (fun r => (keyOf ext profile r, r)))
  have hsorted2 := stableSort_pairwise
    (fun a b : List String × Record => tupleLe a.1 b.1) hletrans hletot
    (l'.map (fun r => (keyOf ext profile r, r)))
  have hanti : ∀ p ∈ stableSort (fun a b : List String × Record => tupleLe a.1 b.1)
        (l.map (fun r => (keyOf ext profile r, r))),
      ∀ q ∈ stableSort (fun a b : List String × Record => tupleLe a.1 b.1)
        (l.map (fun r => (keyOf ext profile r, r))),
      tupleLe p.1 q.1 = true → tupleLe q.1 p.1 = true → p = q := by
    intro p hp q hq h1 h2
    have hp' : p ∈ l.map (fun r => (keyOf ext profile r, r)) :=
      (stableSort_perm _ _).mem_iff.mp hp
    have hq' : q ∈ l.map (fun r => (keyOf ext profile r, r)) :=
      (stableSort_perm _ _).mem_iff.mp hq
    obtain ⟨rp, hrp, hfp⟩ := List.mem_map.mp hp'
    obtain ⟨rq, hrq, hfq⟩ := List.mem_map.mp hq'
    have hkeys : p.1 = q.1 := tupleLe_antisymm p.1 q.1 h1 h2
    have hkk : keyOf ext profile rp = keyOf ext profile rq := by
      rw [← hfp, ← hfq] at hkeys
      exact hkeys
    have hsk : sort_key ext rp profile = sort_key ext rq profile := by
      rw [sort_key_eq_keyOf ext profile rp (hok rp hrp),
        sort_key_eq_keyOf ext profile rq (hok rq hrq), hkk]
    have hr : rp = rq := hinj rp hrp rq hrq hsk
    rw [← hfp, ← hfq, hr]
  have hsorteq : sortRecords ext profile l = sortRecords ext profile l' := by
    rw [sortRecords_eq_of_ok ext profile l hok, sortRecords_eq_of_ok ext profile l' hok',
      sorted_perm_unique (fun a b : List String × Record => tupleLe a.1 b.1)
        _ _ hS hsorted1 hsorted2 hanti]
  refine ⟨hsorteq, fun hash => ?_⟩
  unfold bundle_root
  rw [hsorteq]

/-- A profile under which two distinct records can share a sort key:
`sort_keys = ["domain"]` while `txid` distinguishes them. -/
def profileTieDomain : Profile :=
  { required_fields := []
    canonical_fields := ["domain", "txid"]
    normalizers := [("domain", "trim_ascii"), ("txid", "trim_ascii")]
    sort_keys := ["domain"] }

/-- Counterexample for C4 as stated: two distinct records with the same
`domain` sort key, permuted, sort to different sequences (the stable sort
keeps the input order of key-equal records). -/
theorem c4_tie_counterexample :
    ([[("domain", "x"), ("txid", "1")], [("domain", "x"), ("txid", "2")]] :
        List Record).Perm
      [[("domain", "x"), ("txid", "2")], [("domain", "x"), ("txid", "1")]]
    ∧ sortRecords ext0 profileTieDomain
        [[("domain", "x"), ("txid", "1")], [("domain", "x"), ("txid", "2")]] ≠
      sortRecords ext0 profileTieDomain
        [[("domain", "x"), ("txid", "2")], [("domain", "x"), ("txid", "1")]] := by
  constructor
  · exact List.Perm.swap _ _ _
  · decide

/-- Witness for C4 (amended) at a concrete input: two records with distinct
`domain` keys sort identically from either input order. -/
theorem c4_invariance_witness :
    sortRecords ext0 profileSingleDomain [[("domain", "a")], [("domain", "b")]] =
      sortRecords ext0 profileSingleDomain [[("domain", "b")], [("domain", "a")]] :=
  (c4_sort_permutation_invariant ext0 profileSingleDomain
    [[("domain", "a")], [("domain", "b")]] [[("domain", "b")], [("domain", "a")]]
    (List.Perm.swap _ _ _) (by decide) (by decide)).1

end Ledger
